import Mathlib

/-!
# Verification of the reliable delivery queues of guacamole-lite-server

This file gives a shallow embedding, in Lean 4, of the delivery pipeline of
the repository: the webhook notification queue (`WebhookManager`,
src/lib/webhook-manager.js), the recording upload queue (`RecordingManager`,
src/lib/recording-manager.js), the compression stage
(`RecordingManager.compressRecording`), the payload redaction
(`Utils.sanitizeWebhookPayload`, src/lib/utils.js), and the retry wrapper
used by the S3 client (`Utils.createRetryWrapper`, `S3Uploader.upload`,
src/lib/s3-uploader.js).

Time is modelled by a natural-number clock in milliseconds (`Date.now()`),
delivery outcomes by a boolean-valued function supplied per run, and the
single-threaded cooperative scheduling of node.js by explicit small-step
transition systems whose steps are the code regions between `await`
suspension points.
-/

namespace GuacLite

/-! ## Webhook notification queue (src/lib/webhook-manager.js)

A queued webhook, from `WebhookManager.queueWebhook`:
`{ payload, attempts: 0, maxAttempts: 3, nextRetry: Date.now() }`.
The payload is opaque to the queue; it is modelled by a `Nat` identifier. -/

structure WTask where
  payload : Nat
  attempts : Nat
  maxAttempts : Nat
  nextRetry : Nat
deriving Repr, DecidableEq

/-- `WebhookManager.queueWebhook`: append a fresh task with `attempts = 0`,
`maxAttempts = 3`, `nextRetry = Date.now()` to the tail of the queue. -/
def queueWebhook (p : Nat) (now : Nat) (q : List WTask) : List WTask :=
  q ++ [⟨p, 0, 3, now⟩]

/-- The backoff delay computed in `WebhookManager.processQueue`:
`Math.min(1000 * Math.pow(2, webhook.attempts), 30000)`, evaluated after
`webhook.attempts++`. -/
def webhookBackoff (attempts : Nat) : Nat :=
  min (1000 * 2 ^ attempts) 30000

/-- One iteration of the `while` loop body of `WebhookManager.processQueue`,
acting on the shifted head `t` and the rest of the queue `q` at clock `c`,
given the outcome `ok` of `sendWebhook` (`true` = resolved, `false` =
rejected).  Returns the clock and queue after the iteration:
* `webhook.nextRetry > Date.now()`: `unshift` the task back (queue is
  unchanged) and sleep 1000 ms;
* delivery succeeded: the task is dropped;
* delivery failed: `attempts++`; if still below `maxAttempts`, set
  `nextRetry = Date.now() + backoff` and `push` to the tail, else drop. -/
def wIter (ok : Bool) (c : Nat) (t : WTask) (q : List WTask) :
    Nat × List WTask :=
  if c < t.nextRetry then
    (c + 1000, t :: q)
  else if ok then
    (c, q)
  else
    let a := t.attempts + 1
    if a < t.maxAttempts then
      (c, q ++ [{ t with attempts := a, nextRetry := c + webhookBackoff a }])
    else
      (c, q)

/-- The full drain loop of `WebhookManager.processQueue`, run to completion
with fuel.  `deliver` maps a payload to the outcome of `sendWebhook` for it.
Returns `some (log, finalQueue)` where `log` records each delivery attempt
as a `(clock, payload)` pair in order, or `none` if the fuel ran out. -/
def wrun (deliver : Nat → Bool) :
    Nat → Nat → List WTask → Option (List (Nat × Nat) × List WTask)
  | 0, _, _ => none
  | _ + 1, _, [] => some ([], [])
  | fuel + 1, c, t :: q =>
    if c < t.nextRetry then
      wrun deliver fuel (c + 1000) (t :: q)
    else if deliver t.payload then
      (wrun deliver fuel c q).map (fun r => ((c, t.payload) :: r.1, r.2))
    else
      let a := t.attempts + 1
      if a < t.maxAttempts then
        (wrun deliver fuel c
            (q ++ [{ t with attempts := a, nextRetry := c + webhookBackoff a }])).map
          (fun r => ((c, t.payload) :: r.1, r.2))
      else
        (wrun deliver fuel c q).map (fun r => ((c, t.payload) :: r.1, r.2))

/-! ## Recording upload queue (src/lib/recording-manager.js)

A queued upload, from `RecordingManager.queueForUpload`:
`{ filePath, connection, sessionId, attempts: 0, maxAttempts: 3 }`.
There is no `nextRetry` field on upload tasks.  The file path (with the
connection and session it stands for) is modelled by a `Nat` identifier. -/

structure UTask where
  filePath : Nat
  attempts : Nat
  maxAttempts : Nat
deriving Repr, DecidableEq

/-- `RecordingManager.queueForUpload`: append a fresh task with
`attempts = 0`, `maxAttempts = 3` to the tail of the queue. -/
def queueForUpload (fp : Nat) (q : List UTask) : List UTask :=
  q ++ [⟨fp, 0, 3⟩]

/-- The delay slept by `RecordingManager.processUploadQueue` after a failed
attempt that is re-queued: `setTimeout(..., 5000 * upload.attempts)`,
evaluated after `upload.attempts++`. -/
def uploadRetryDelay (attempts : Nat) : Nat :=
  5000 * attempts

/-- One iteration of the `while` loop body of
`RecordingManager.processUploadQueue` on the shifted head `t` and rest `q`
at clock `c`, given the outcome `ok` of `uploadRecording`:
* success: the task is dropped;
* failure: `attempts++`; if still below `maxAttempts`, `push` the task
  (otherwise unchanged) to the tail and sleep `5000 * attempts` ms —
  blocking the whole loop — else drop.  No eligibility timestamp exists. -/
def uIter (ok : Bool) (c : Nat) (t : UTask) (q : List UTask) :
    Nat × List UTask :=
  if ok then
    (c, q)
  else
    let a := t.attempts + 1
    if a < t.maxAttempts then
      (c + uploadRetryDelay a, q ++ [{ t with attempts := a }])
    else
      (c, q)

/-- The full drain loop of `RecordingManager.processUploadQueue`, run to
completion with fuel; `deliver` gives the outcome of `uploadRecording` per
file.  Returns `some (log, finalQueue)` with the `(clock, filePath)` attempt
log, or `none` if the fuel ran out. -/
def urun (deliver : Nat → Bool) :
    Nat → Nat → List UTask → Option (List (Nat × Nat) × List UTask)
  | 0, _, _ => none
  | _ + 1, _, [] => some ([], [])
  | fuel + 1, c, t :: q =>
    if deliver t.filePath then
      (urun deliver fuel c q).map (fun r => ((c, t.filePath) :: r.1, r.2))
    else
      let a := t.attempts + 1
      if a < t.maxAttempts then
        (urun deliver fuel (c + uploadRetryDelay a)
            (q ++ [{ t with attempts := a }])).map
          (fun r => ((c, t.filePath) :: r.1, r.2))
      else
        (urun deliver fuel c q).map (fun r => ((c, t.filePath) :: r.1, r.2))

/-! ### Attempt counting for an always-failing task (claim C1) -/

/-- A single always-failing upload task with `attempts = k < N` and
`maxAttempts = N` is attempted exactly `N - k` more times and then the
queue is empty. -/
theorem urun_fail_single (p N : Nat) :
    ∀ j k c, k < N → N - k = j →
      ∃ f log, urun (fun _ => false) f c [⟨p, k, N⟩] = some (log, []) ∧
        log.length = j := by
  intro j
  induction j with
  | zero => intro k c hk hj; omega
  | succ j ih =>
    intro k c hk hj
    by_cases h : k + 1 < N
    · obtain ⟨f, log, hrun, hlen⟩ := ih (k + 1) (c + uploadRetryDelay (k + 1)) h (by omega)
      refine ⟨f + 1, (c, p) :: log, ?_, by simp [hlen]⟩
      simp only [urun, List.nil_append, if_pos h, if_neg (Bool.false_ne_true)]
      rw [hrun]
      rfl
    · have hj0 : j = 0 := by omega
      refine ⟨2, [(c, p)], ?_, by simp [hj0]⟩
      simp only [urun, if_neg h, if_neg (Bool.false_ne_true)]
      rfl

/-- Waiting phase of the webhook drain loop: if the single queued task
becomes eligible within `m` sleeps of 1000 ms, and the run from any clock
at which it is eligible yields `n` attempts and an empty queue, then so
does the run from the current clock. -/
theorem wrun_wait :
    ∀ (m c : Nat) (t : WTask) (n : Nat),
      t.nextRetry ≤ c + 1000 * m →
      (∀ c', t.nextRetry ≤ c' →
        ∃ f log, wrun (fun _ => false) f c' [t] = some (log, []) ∧ log.length = n) →
      ∃ f log, wrun (fun _ => false) f c [t] = some (log, []) ∧ log.length = n := by
  intro m
  induction m with
  | zero => intro c t n hle H; exact H c (by omega)
  | succ m ih =>
    intro c t n hle H
    by_cases hc : t.nextRetry ≤ c
    · exact H c hc
    · obtain ⟨f, log, hrun, hlen⟩ := ih (c + 1000) t n (by omega) H
      refine ⟨f + 1, log, ?_, hlen⟩
      simp only [wrun]
      rw [if_pos (by omega : c < t.nextRetry)]
      exact hrun

/-- A single always-failing webhook task with `attempts = k < N`,
`maxAttempts = N`, already eligible (`nextRetry ≤ clock`), is attempted
exactly `N - k` more times and then the queue is empty. -/
theorem wrun_fail_single (p N : Nat) :
    ∀ j k c r, k < N → N - k = j → r ≤ c →
      ∃ f log, wrun (fun _ => false) f c [⟨p, k, N, r⟩] = some (log, []) ∧
        log.length = j := by
  intro j
  induction j with
  | zero => intro k c r hk hj _; omega
  | succ j ih =>
    intro k c r hk hj hr
    by_cases h : k + 1 < N
    · have htail : ∃ f log, wrun (fun _ => false) f c
          [⟨p, k + 1, N, c + webhookBackoff (k + 1)⟩] = some (log, []) ∧
          log.length = j := by
        refine wrun_wait 30 c ⟨p, k + 1, N, c + webhookBackoff (k + 1)⟩ j ?_ ?_
        · have hb : webhookBackoff (k + 1) ≤ 30000 := min_le_right _ _
          simp only []
          omega
        · intro c' hc'
          exact ih (k + 1) c' (c + webhookBackoff (k + 1)) h (by omega) hc'
      obtain ⟨f, log, hrun, hlen⟩ := htail
      refine ⟨f + 1, (c, p) :: log, ?_, by simp [hlen]⟩
      simp only [wrun, List.nil_append]
      rw [if_neg (by omega : ¬ c < r)]
      rw [if_neg (Bool.false_ne_true)]
      rw [if_pos h, hrun]
      rfl
    · have hj0 : j = 0 := by omega
      refine ⟨2, [(c, p)], ?_, by simp [hj0]⟩
      simp only [wrun]
      rw [if_neg (by omega : ¬ c < r)]
      rw [if_neg (Bool.false_ne_true)]
      rw [if_neg h]
      rfl

/-- C1, corrected claim: in both queues a task whose delivery always fails
and whose `maxAttempts` is `N ≥ 1` undergoes exactly `N` delivery attempts
(the initial attempt plus `N - 1` retries) before being permanently
dropped, after which the queue is empty.  (The claim's "N+1 attempts" and
"maxAttempts = 2 gives 3 attempts" do not hold on the code: the counter is
incremented before the `attempts < maxAttempts` check, so `maxAttempts`
bounds the total number of attempts.) -/
theorem always_failing_task_attempted_maxAttempts_times (p N : Nat) (hN : 1 ≤ N) :
    (∃ f log, wrun (fun _ => false) f 0 [⟨p, 0, N, 0⟩] = some (log, []) ∧
      log.length = N) ∧
    (∃ f log, urun (fun _ => false) f 0 [⟨p, 0, N⟩] = some (log, []) ∧
      log.length = N) :=
  ⟨wrun_fail_single p N N 0 0 0 (by omega) (by omega) (Nat.le_refl 0),
   urun_fail_single p N N 0 0 (by omega) (by omega)⟩

/-- C1 counterexample: a notification task with `maxAttempts = 2` whose
delivery always fails is attempted exactly 2 times — at clocks 0 and 2000 —
not 3 times as the claim states, and the queue ends empty. -/
theorem webhook_maxAttempts_two_gives_two_attempts :
    wrun (fun _ => false) 100 0 [⟨0, 0, 2, 0⟩] = some ([(0, 0), (2000, 0)], []) ∧
    ([(0, 0), (2000, 0)] : List (Nat × Nat)).length = 2 ∧ (2 : Nat) ≠ 3 :=
  ⟨by decide, by decide, by decide⟩

/-- Witness for `always_failing_task_attempted_maxAttempts_times` at
`p = 0`, `N = 3` (the `maxAttempts` value both queues are built with). -/
theorem always_failing_task_attempted_maxAttempts_times_witness :
    1 ≤ 3 ∧
    ((∃ f log, wrun (fun _ => false) f 0 [⟨0, 0, 3, 0⟩] = some (log, []) ∧
      log.length = 3) ∧
    (∃ f log, urun (fun _ => false) f 0 [⟨0, 0, 3⟩] = some (log, []) ∧
      log.length = 3)) :=
  ⟨by decide, always_failing_task_attempted_maxAttempts_times 0 3 (by decide)⟩

/-! ### The attempts-versus-maxAttempts invariant (claim C2) -/

/-- All tasks of a webhook queue respect the attempt ceiling. -/
def WQueueInv (q : List WTask) : Prop :=
  ∀ t ∈ q, t.attempts ≤ t.maxAttempts

/-- All tasks of an upload queue respect the attempt ceiling. -/
def UQueueInv (q : List UTask) : Prop :=
  ∀ t ∈ q, t.attempts ≤ t.maxAttempts

/-- C2: in both queues, `attempts ≤ maxAttempts` holds for every enqueued
task and is preserved by enqueuing and by every loop iteration, whatever
the delivery outcome; and a task whose failed attempt brings its counter to
the ceiling is dropped: the resulting queue is exactly the remaining tail,
so the task is never re-enqueued with `attempts` at or above the ceiling. -/
theorem attempts_never_exceed_maxAttempts :
    (∀ p now q, WQueueInv q → WQueueInv (queueWebhook p now q)) ∧
    (∀ fp q, UQueueInv q → UQueueInv (queueForUpload fp q)) ∧
    (∀ ok c (t : WTask) q, t.attempts ≤ t.maxAttempts → WQueueInv q →
      WQueueInv (wIter ok c t q).2) ∧
    (∀ ok c (t : UTask) q, t.attempts ≤ t.maxAttempts → UQueueInv q →
      UQueueInv (uIter ok c t q).2) ∧
    (∀ c (t : WTask) q, t.nextRetry ≤ c → t.maxAttempts ≤ t.attempts + 1 →
      (wIter false c t q).2 = q) ∧
    (∀ c (t : UTask) q, t.maxAttempts ≤ t.attempts + 1 →
      (uIter false c t q).2 = q) := by
  refine ⟨?_, ?_, ?_, ?_, ?_, ?_⟩
  · intro p now q hq t ht
    rcases List.mem_append.mp ht with h | h
    · exact hq t h
    · simp only [List.mem_singleton] at h
      subst h; exact Nat.zero_le _
  · intro fp q hq t ht
    rcases List.mem_append.mp ht with h | h
    · exact hq t h
    · simp only [List.mem_singleton] at h
      subst h; exact Nat.zero_le _
  · intro ok c t q ht hq
    unfold wIter
    dsimp only
    split
    · intro u hu
      rcases List.mem_cons.mp hu with h | h
      · subst h; exact ht
      · exact hq u h
    · split
      · exact hq
      · split
        · intro u hu
          rcases List.mem_append.mp hu with h | h
          · exact hq u h
          · simp only [List.mem_singleton] at h
            subst h
            simpa using by omega
        · exact hq
  · intro ok c t q ht hq
    unfold uIter
    dsimp only
    split
    · exact hq
    · split
      · intro u hu
        rcases List.mem_append.mp hu with h | h
        · exact hq u h
        · simp only [List.mem_singleton] at h
          subst h
          simpa using by omega
      · exact hq
  · intro c t q hr hmax
    unfold wIter
    rw [if_neg (by omega : ¬ c < t.nextRetry), if_neg (Bool.false_ne_true),
      if_neg (by omega : ¬ t.attempts + 1 < t.maxAttempts)]
  · intro c t q hmax
    unfold uIter
    rw [if_neg (Bool.false_ne_true),
      if_neg (by omega : ¬ t.attempts + 1 < t.maxAttempts)]

/-- Witness for `attempts_never_exceed_maxAttempts`: concrete instances of
each conjunct, on a one-task queue holding the task both queues create. -/
theorem attempts_never_exceed_maxAttempts_witness :
    WQueueInv (queueWebhook 0 0 []) ∧
    UQueueInv (queueForUpload 0 []) ∧
    WQueueInv (wIter false 0 ⟨0, 0, 3, 0⟩ []).2 ∧
    UQueueInv (uIter false 0 ⟨0, 0, 3⟩ []).2 ∧
    (wIter false 0 ⟨0, 2, 3, 0⟩ []).2 = [] ∧
    (uIter false 0 ⟨0, 2, 3⟩ []).2 = [] := by
  have h := attempts_never_exceed_maxAttempts
  exact ⟨h.1 0 0 [] (by intro t ht; cases ht),
    h.2.1 0 [] (by intro t ht; cases ht),
    h.2.2.1 false 0 ⟨0, 0, 3, 0⟩ [] (by decide) (by intro t ht; cases ht),
    h.2.2.2.1 false 0 ⟨0, 0, 3⟩ [] (by decide) (by intro t ht; cases ht),
    h.2.2.2.2.1 0 ⟨0, 2, 3, 0⟩ [] (by decide) (by decide),
    h.2.2.2.2.2 0 ⟨0, 2, 3⟩ [] (by decide)⟩

/-! ### Backoff on failure (claim C5) -/

/-- C5, corrected claim: when a delivery attempt fails with the counter
still below the ceiling, the notification queue sets the task's
`nextRetry` to `now + min(1000 * 2 ^ attempts, 30000)` (the counter having
just been incremented) and re-appends it to the tail; the upload queue has
no next-eligible timestamp at all — it re-appends the task changed only in
its `attempts` counter and instead blocks the whole drain loop for
`5000 * attempts` ms, a linear (not capped-exponential) delay. -/
theorem backoff_on_failed_attempt (c : Nat) (t : WTask) (q : List WTask)
    (u : UTask) (uq : List UTask)
    (hw : t.attempts + 1 < t.maxAttempts) (hr : t.nextRetry ≤ c)
    (hu : u.attempts + 1 < u.maxAttempts) :
    wIter false c t q =
      (c, q ++ [{ t with attempts := t.attempts + 1, nextRetry := c + min (1000 * 2 ^ (t.attempts + 1)) 30000 }]) ∧
    uIter false c u uq =
      (c + 5000 * (u.attempts + 1), uq ++ [{ u with attempts := u.attempts + 1 }]) := by
  constructor
  · unfold wIter
    rw [if_neg (by omega : ¬ c < t.nextRetry), if_neg (Bool.false_ne_true), if_pos hw]
    rfl
  · unfold uIter
    rw [if_neg (Bool.false_ne_true), if_pos hu]
    rfl

/-- C5 counterexample: the delay the upload queue sleeps after a failure,
`5000 * attempts`, is not of the form `min(base * 2 ^ attempts, cap)` for
any base and cap — already over the attempt-counter values 1 to 4 the
capped-exponential shape is contradictory. -/
theorem upload_backoff_not_capped_exponential :
    ¬ ∃ base cap : Nat, ∀ a, 1 ≤ a → a ≤ 4 →
      uploadRetryDelay a = min (base * 2 ^ a) cap := by
  rintro ⟨b, c, h⟩
  have h1 := h 1 (by norm_num) (by norm_num)
  have h2 := h 2 (by norm_num) (by norm_num)
  have h3 := h 3 (by norm_num) (by norm_num)
  have h4 := h 4 (by norm_num) (by norm_num)
  norm_num [uploadRetryDelay, Nat.min_def] at h1 h2 h3 h4
  split_ifs at h1 h2 h3 h4 <;> omega

/-- Witness for `backoff_on_failed_attempt`: a first failure at clock 100
sets `nextRetry = 100 + 2000` on the webhook task, and re-appends the
upload task bare with a 5000 ms loop sleep. -/
theorem backoff_on_failed_attempt_witness :
    wIter false 100 ⟨7, 0, 3, 50⟩ [] = (100, [⟨7, 1, 3, 2100⟩]) ∧
    uIter false 100 ⟨7, 0, 3⟩ [] = (5100, [⟨7, 1, 3⟩]) := by
  have h := backoff_on_failed_attempt 100 ⟨7, 0, 3, 50⟩ [] ⟨7, 0, 3⟩ []
    (by decide) (by decide) (by decide)
  exact ⟨by rw [h.1]; decide, by rw [h.2]; decide⟩

/-! ### Treatment of a not-yet-eligible head task (claim C6) -/

/-- C6, corrected claim: when the head task's `nextRetry` is still in the
future, `processQueue` `unshift`s it back to the **head** (the queue is
unchanged) and sleeps 1000 ms before re-checking, so a head task inside its
backoff window delays every task behind it, including already-eligible
ones; attempts happen strictly in queue order. -/
theorem ineligible_head_stays_at_head (ok : Bool) (c : Nat) (t : WTask)
    (q : List WTask) (h : c < t.nextRetry) :
    wIter ok c t q = (c + 1000, t :: q) := by
  unfold wIter
  rw [if_pos h]

/-- C6 counterexample: with head task 0 in backoff until clock 5000 and an
immediately eligible task 1 behind it, the iteration keeps task 0 at the
head (not re-appended to the tail behind task 1), and a full run attempts
task 1 only at clock 5000, after task 0 — the eligible task is starved for
the whole backoff window. -/
theorem ineligible_head_starves_eligible_task :
    wIter true 0 ⟨0, 0, 3, 5000⟩ [⟨1, 0, 3, 0⟩] =
      (1000, [⟨0, 0, 3, 5000⟩, ⟨1, 0, 3, 0⟩]) ∧
    ([⟨0, 0, 3, 5000⟩, ⟨1, 0, 3, 0⟩] : List WTask) ≠
      [⟨1, 0, 3, 0⟩, ⟨0, 0, 3, 5000⟩] ∧
    wrun (fun _ => true) 20 0 [⟨0, 0, 3, 5000⟩, ⟨1, 0, 3, 0⟩] =
      some ([(5000, 0), (5000, 1)], []) :=
  ⟨by decide, by decide, by decide⟩

/-- Witness for `ineligible_head_stays_at_head` at a concrete state. -/
theorem ineligible_head_stays_at_head_witness :
    wIter false 0 ⟨5, 1, 3, 2000⟩ [⟨6, 0, 3, 0⟩] =
      (1000, [⟨5, 1, 3, 2000⟩, ⟨6, 0, 3, 0⟩]) :=
  ineligible_head_stays_at_head false 0 ⟨5, 1, 3, 2000⟩ [⟨6, 0, 3, 0⟩] (by decide)

/-! ### Cooperative interleaving model of `WebhookManager` (claims C3, C4)

Node.js runs the manager single-threaded; control can change hands only at
`await` suspension points.  A state records the queue, the `processing`
flag, the clock, the task currently inside an `await this.sendWebhook(...)`
(if any), and — as ghost instrumentation — the number of drain-loop
instances currently active between their guard and their final
`this.processing = false`. -/

structure WMState where
  clock : Nat
  queue : List WTask
  processing : Bool
  inflight : Option WTask
  loops : Nat
deriving Repr, DecidableEq

/-- Small-step transitions of `WebhookManager`, each an uninterruptible
code region between suspension points:
* `enqueueBusy`/`enqueueIdle`: `queueWebhook` pushes a task and calls
  `processQueue` synchronously; the guard
  `if (this.processing || this.queue.length === 0) return` either returns
  at once or sets `processing = true` and starts a drain-loop instance
  (the pushed queue is never empty, so only the flag decides);
* `waitStep`: the loop shifted a head whose `nextRetry` is in the future,
  unshifted it back and is sleeping 1000 ms;
* `startAttempt`: the loop shifted an eligible head and suspends in
  `await this.sendWebhook(...)`;
* `finishSuccess` / `finishFailRequeue` / `finishFailDrop`: the awaited
  delivery settles, and the failure handling of `processQueue` runs;
* `loopExit`: the loop observes an empty queue, clears `processing` and
  terminates. -/
inductive WMStep : WMState → WMState → Prop where
  | enqueueBusy (s : WMState) (p : Nat) (h : s.processing = true) :
      WMStep s { s with queue := s.queue ++ [⟨p, 0, 3, s.clock⟩] }
  | enqueueIdle (s : WMState) (p : Nat) (h : s.processing = false) :
      WMStep s { s with queue := s.queue ++ [⟨p, 0, 3, s.clock⟩], processing := true, loops := s.loops + 1 }
  | waitStep (s : WMState) (t : WTask) (q : List WTask) (hl : 1 ≤ s.loops)
      (hin : s.inflight = none) (hq : s.queue = t :: q) (hr : s.clock < t.nextRetry) :
      WMStep s { s with clock := s.clock + 1000 }
  | startAttempt (s : WMState) (t : WTask) (q : List WTask) (hl : 1 ≤ s.loops)
      (hin : s.inflight = none) (hq : s.queue = t :: q) (hr : t.nextRetry ≤ s.clock) :
      WMStep s { s with queue := q, inflight := some t }
  | finishSuccess (s : WMState) (t : WTask) (h : s.inflight = some t) :
      WMStep s { s with inflight := none }
  | finishFailRequeue (s : WMState) (t : WTask) (h : s.inflight = some t)
      (ha : t.attempts + 1 < t.maxAttempts) :
      WMStep s { s with inflight := none, queue := s.queue ++ [{ t with attempts := t.attempts + 1, nextRetry := s.clock + webhookBackoff (t.attempts + 1) }] }
  | finishFailDrop (s : WMState) (t : WTask) (h : s.inflight = some t)
      (ha : t.maxAttempts ≤ t.attempts + 1) :
      WMStep s { s with inflight := none }
  | loopExit (s : WMState) (hl : 1 ≤ s.loops) (hin : s.inflight = none)
      (hq : s.queue = []) :
      WMStep s { s with processing := false, loops := s.loops - 1 }

/-- The state of a freshly constructed `WebhookManager`. -/
def WMInit : WMState := ⟨0, [], false, none, 0⟩

/-- States reachable from a fresh `WebhookManager`. -/
def WMReach (s : WMState) : Prop :=
  Relation.ReflTransGen WMStep WMInit s

/-- Inductive invariant of the webhook manager: at most one drain loop is
active, the `processing` flag witnesses exactly that, an in-flight delivery
belongs to an active loop, and with no loop active nothing is queued. -/
def WMInv (s : WMState) : Prop :=
  s.loops ≤ 1 ∧ (s.processing = true ↔ s.loops = 1) ∧
    (s.inflight ≠ none → s.loops = 1) ∧ (s.loops = 0 → s.queue = [])

theorem WMInv_init : WMInv WMInit := by
  refine ⟨by decide, ?_, ?_, fun _ => rfl⟩
  · simp [WMInit]
  · intro h; exact absurd rfl h

theorem WMInv_step {s s' : WMState} (h : WMInv s) (st : WMStep s s') : WMInv s' := by
  obtain ⟨h1, h2, h3, h4⟩ := h
  cases st with
  | enqueueBusy p hp =>
      unfold WMInv
      dsimp only
      refine ⟨h1, h2, h3, ?_⟩
      intro h0
      have hpl := h2.mp hp
      exact absurd h0 (by omega)
  | enqueueIdle p hp =>
      unfold WMInv
      dsimp only
      have hl0 : s.loops = 0 := by
        by_contra hne
        have he : s.loops = 1 := by omega
        have hptrue := h2.mpr he
        rw [hp] at hptrue
        exact Bool.false_ne_true hptrue
      refine ⟨by omega, ?_, fun _ => by omega, fun h0 => absurd h0 (by omega)⟩
      exact ⟨fun _ => by omega, fun _ => rfl⟩
  | waitStep t q hl hin hq hr =>
      unfold WMInv
      dsimp only
      exact ⟨h1, h2, h3, fun h0 => absurd h0 (by omega)⟩
  | startAttempt t q hl hin hq hr =>
      unfold WMInv
      dsimp only
      exact ⟨h1, h2, fun _ => by omega, fun h0 => absurd h0 (by omega)⟩
  | finishSuccess t ht =>
      unfold WMInv
      dsimp only
      have hl1 : s.loops = 1 := h3 (by rw [ht]; exact fun hc => Option.noConfusion hc)
      exact ⟨h1, h2, fun _ => hl1, fun h0 => absurd h0 (by omega)⟩
  | finishFailRequeue t ht ha =>
      unfold WMInv
      dsimp only
      have hl1 : s.loops = 1 := h3 (by rw [ht]; exact fun hc => Option.noConfusion hc)
      exact ⟨h1, h2, fun _ => hl1, fun h0 => absurd h0 (by omega)⟩
  | finishFailDrop t ht ha =>
      unfold WMInv
      dsimp only
      have hl1 : s.loops = 1 := h3 (by rw [ht]; exact fun hc => Option.noConfusion hc)
      exact ⟨h1, h2, fun _ => hl1, fun h0 => absurd h0 (by omega)⟩
  | loopExit hl hin hq =>
      unfold WMInv
      dsimp only
      have hl1 : s.loops = 1 := by omega
      refine ⟨by omega, ?_, ?_, fun _ => hq⟩
      · exact ⟨fun hfalse => absurd hfalse (by simp), fun hcontra => absurd hcontra (by omega)⟩
      · intro hinn; exact absurd hin hinn

theorem WMInv_reach {s : WMState} (h : WMReach s) : WMInv s := by
  induction h with
  | refl => exact WMInv_init
  | tail _ st ih => exact WMInv_step ih st

/-! ### Cooperative interleaving model of `RecordingManager`'s upload queue

Same shape as the webhook model.  `processUploadQueue` has no eligibility
check, and after a re-queued failure it sleeps `5000 * attempts` ms inside
the loop (folded here into the re-queue transition's clock advance). -/

structure UMState where
  clock : Nat
  queue : List UTask
  processing : Bool
  inflight : Option UTask
  loops : Nat
deriving Repr, DecidableEq

/-- Small-step transitions of `RecordingManager.processUploadQueue` and
`queueForUpload`, between `await` suspension points. -/
inductive UMStep : UMState → UMState → Prop where
  | enqueueBusy (s : UMState) (fp : Nat) (h : s.processing = true) :
      UMStep s { s with queue := s.queue ++ [⟨fp, 0, 3⟩] }
  | enqueueIdle (s : UMState) (fp : Nat) (h : s.processing = false) :
      UMStep s { s with queue := s.queue ++ [⟨fp, 0, 3⟩], processing := true, loops := s.loops + 1 }
  | startAttempt (s : UMState) (t : UTask) (q : List UTask) (hl : 1 ≤ s.loops)
      (hin : s.inflight = none) (hq : s.queue = t :: q) :
      UMStep s { s with queue := q, inflight := some t }
  | finishSuccess (s : UMState) (t : UTask) (h : s.inflight = some t) :
      UMStep s { s with inflight := none }
  | finishFailRequeue (s : UMState) (t : UTask) (h : s.inflight = some t)
      (ha : t.attempts + 1 < t.maxAttempts) :
      UMStep s { s with inflight := none, queue := s.queue ++ [{ t with attempts := t.attempts + 1 }], clock := s.clock + uploadRetryDelay (t.attempts + 1) }
  | finishFailDrop (s : UMState) (t : UTask) (h : s.inflight = some t)
      (ha : t.maxAttempts ≤ t.attempts + 1) :
      UMStep s { s with inflight := none }
  | loopExit (s : UMState) (hl : 1 ≤ s.loops) (hin : s.inflight = none)
      (hq : s.queue = []) :
      UMStep s { s with processing := false, loops := s.loops - 1 }

/-- The state of a freshly constructed `RecordingManager`. -/
def UMInit : UMState := ⟨0, [], false, none, 0⟩

/-- States reachable from a fresh `RecordingManager`. -/
def UMReach (s : UMState) : Prop :=
  Relation.ReflTransGen UMStep UMInit s

/-- Inductive invariant of the upload queue, mirroring `WMInv`. -/
def UMInv (s : UMState) : Prop :=
  s.loops ≤ 1 ∧ (s.processing = true ↔ s.loops = 1) ∧
    (s.inflight ≠ none → s.loops = 1) ∧ (s.loops = 0 → s.queue = [])

theorem UMInv_init : UMInv UMInit := by
  refine ⟨by decide, ?_, ?_, fun _ => rfl⟩
  · simp [UMInit]
  · intro h; exact absurd rfl h

theorem UMInv_step {s s' : UMState} (h : UMInv s) (st : UMStep s s') : UMInv s' := by
  obtain ⟨h1, h2, h3, h4⟩ := h
  cases st with
  | enqueueBusy fp hp =>
      unfold UMInv
      dsimp only
      refine ⟨h1, h2, h3, ?_⟩
      intro h0
      have hpl := h2.mp hp
      exact absurd h0 (by omega)
  | enqueueIdle fp hp =>
      unfold UMInv
      dsimp only
      have hl0 : s.loops = 0 := by
        by_contra hne
        have he : s.loops = 1 := by omega
        have hptrue := h2.mpr he
        rw [hp] at hptrue
        exact Bool.false_ne_true hptrue
      refine ⟨by omega, ?_, fun _ => by omega, fun h0 => absurd h0 (by omega)⟩
      exact ⟨fun _ => by omega, fun _ => rfl⟩
  | startAttempt t q hl hin hq =>
      unfold UMInv
      dsimp only
      exact ⟨h1, h2, fun _ => by omega, fun h0 => absurd h0 (by omega)⟩
  | finishSuccess t ht =>
      unfold UMInv
      dsimp only
      have hl1 : s.loops = 1 := h3 (by rw [ht]; exact fun hc => Option.noConfusion hc)
      exact ⟨h1, h2, fun _ => hl1, fun h0 => absurd h0 (by omega)⟩
  | finishFailRequeue t ht ha =>
      unfold UMInv
      dsimp only
      have hl1 : s.loops = 1 := h3 (by rw [ht]; exact fun hc => Option.noConfusion hc)
      exact ⟨h1, h2, fun _ => hl1, fun h0 => absurd h0 (by omega)⟩
  | finishFailDrop t ht ha =>
      unfold UMInv
      dsimp only
      have hl1 : s.loops = 1 := h3 (by rw [ht]; exact fun hc => Option.noConfusion hc)
      exact ⟨h1, h2, fun _ => hl1, fun h0 => absurd h0 (by omega)⟩
  | loopExit hl hin hq =>
      unfold UMInv
      dsimp only
      have hl1 : s.loops = 1 := by omega
      refine ⟨by omega, ?_, ?_, fun _ => hq⟩
      · exact ⟨fun hfalse => absurd hfalse (by simp), fun hcontra => absurd hcontra (by omega)⟩
      · intro hinn; exact absurd hin hinn

theorem UMInv_reach {s : UMState} (h : UMReach s) : UMInv s := by
  induction h with
  | refl => exact UMInv_init
  | tail _ st ih => exact UMInv_step ih st

/-- In a webhook-manager step, if the `processing` flag goes from `true` to
`false`, the step is the loop exit, taken only on an observed empty queue. -/
theorem WM_flag_cleared_only_on_empty {s s' : WMState} (st : WMStep s s')
    (hp : s.processing = true) (hp' : s'.processing = false) : s'.queue = [] := by
  cases st with
  | enqueueBusy p h => dsimp only at hp'; rw [hp] at hp'; exact absurd hp' (by simp)
  | enqueueIdle p h => dsimp only at hp'; exact absurd hp' (by simp)
  | waitStep t q hl hin hq hr => dsimp only at hp'; rw [hp] at hp'; exact absurd hp' (by simp)
  | startAttempt t q hl hin hq hr => dsimp only at hp'; rw [hp] at hp'; exact absurd hp' (by simp)
  | finishSuccess t ht => dsimp only at hp'; rw [hp] at hp'; exact absurd hp' (by simp)
  | finishFailRequeue t ht ha => dsimp only at hp'; rw [hp] at hp'; exact absurd hp' (by simp)
  | finishFailDrop t ht ha => dsimp only at hp'; rw [hp] at hp'; exact absurd hp' (by simp)
  | loopExit hl hin hq => exact hq

/-- Upload-queue analogue of `WM_flag_cleared_only_on_empty`. -/
theorem UM_flag_cleared_only_on_empty {s s' : UMState} (st : UMStep s s')
    (hp : s.processing = true) (hp' : s'.processing = false) : s'.queue = [] := by
  cases st with
  | enqueueBusy fp h => dsimp only at hp'; rw [hp] at hp'; exact absurd hp' (by simp)
  | enqueueIdle fp h => dsimp only at hp'; exact absurd hp' (by simp)
  | startAttempt t q hl hin hq => dsimp only at hp'; rw [hp] at hp'; exact absurd hp' (by simp)
  | finishSuccess t ht => dsimp only at hp'; rw [hp] at hp'; exact absurd hp' (by simp)
  | finishFailRequeue t ht ha => dsimp only at hp'; rw [hp] at hp'; exact absurd hp' (by simp)
  | finishFailDrop t ht ha => dsimp only at hp'; rw [hp] at hp'; exact absurd hp' (by simp)
  | loopExit hl hin hq => exact hq

/-- C3: for each queue instance, at most one drain loop is ever active: in
every reachable state the ghost count of active loop instances is at most
one, the `processing` flag is true exactly while a loop instance is active
(it is set when a loop starts), and any step that clears the flag is a loop
exit on an observed empty queue.  Enqueues during an active drain take the
`enqueueBusy` transition and never start a second loop. -/
theorem at_most_one_drain_loop :
    (∀ s : WMState, WMReach s → s.loops ≤ 1 ∧ (s.processing = true ↔ s.loops = 1) ∧
      ∀ s', WMStep s s' → s.processing = true → s'.processing = false → s'.queue = []) ∧
    (∀ s : UMState, UMReach s → s.loops ≤ 1 ∧ (s.processing = true ↔ s.loops = 1) ∧
      ∀ s', UMStep s s' → s.processing = true → s'.processing = false → s'.queue = []) := by
  constructor
  · intro s hs
    obtain ⟨h1, h2, _, _⟩ := WMInv_reach hs
    exact ⟨h1, h2, fun s' st hp hp' => WM_flag_cleared_only_on_empty st hp hp'⟩
  · intro s hs
    obtain ⟨h1, h2, _, _⟩ := UMInv_reach hs
    exact ⟨h1, h2, fun s' st hp hp' => UM_flag_cleared_only_on_empty st hp hp'⟩

/-- Witness for `at_most_one_drain_loop` at the initial states of the two
managers. -/
theorem at_most_one_drain_loop_witness :
    (WMInit.loops ≤ 1 ∧ (WMInit.processing = true ↔ WMInit.loops = 1)) ∧
    (UMInit.loops ≤ 1 ∧ (UMInit.processing = true ↔ UMInit.loops = 1)) :=
  ⟨⟨(at_most_one_drain_loop.1 WMInit Relation.ReflTransGen.refl).1,
    (at_most_one_drain_loop.1 WMInit Relation.ReflTransGen.refl).2.1⟩,
   ⟨(at_most_one_drain_loop.2 UMInit Relation.ReflTransGen.refl).1,
    (at_most_one_drain_loop.2 UMInit Relation.ReflTransGen.refl).2.1⟩⟩

/-! ### `cleanup()` (claim C4)

`WebhookManager.cleanup` is
`while (this.queue.length > 0 && this.processing) await sleep(1000)`, and
`RecordingManager.cleanup` is the same on `uploadQueue`.  The poll resolves
as soon as the loop condition — a conjunction — is false. -/

/-- The negated loop condition of `WebhookManager.cleanup`: the poll
resolves in state `s` iff `!(queue.length > 0 && processing)`. -/
def webhookCleanupDone (s : WMState) : Bool :=
  !(decide (0 < s.queue.length) && s.processing)

/-- The negated loop condition of `RecordingManager.cleanup`. -/
def uploadCleanupDone (s : UMState) : Bool :=
  !(decide (0 < s.queue.length) && s.processing)

/-- C4 counterexample: the reachable state in which the drain loop of a
fresh `WebhookManager` is awaiting `sendWebhook` on its only task has an
empty queue, so `cleanup()`'s poll resolves there — yet the `processing`
flag is still true and the in-flight task can still fail, be re-enqueued
(the exhibited next step, with `nextRetry = 2000`), and be delivered after
`cleanup()` has already returned. -/
theorem cleanup_can_resolve_with_task_in_flight :
    WMReach ⟨0, [], true, some ⟨0, 0, 3, 0⟩, 1⟩ ∧
    webhookCleanupDone ⟨0, [], true, some ⟨0, 0, 3, 0⟩, 1⟩ = true ∧
    (⟨0, [], true, some ⟨0, 0, 3, 0⟩, 1⟩ : WMState).processing = true ∧
    WMStep ⟨0, [], true, some ⟨0, 0, 3, 0⟩, 1⟩ ⟨0, [⟨0, 1, 3, 2000⟩], true, none, 1⟩ := by
  refine ⟨?_, by decide, rfl, ?_⟩
  · have s1 : WMStep WMInit ⟨0, [⟨0, 0, 3, 0⟩], true, none, 1⟩ :=
      WMStep.enqueueIdle WMInit 0 rfl
    have s2 : WMStep ⟨0, [⟨0, 0, 3, 0⟩], true, none, 1⟩ ⟨0, [], true, some ⟨0, 0, 3, 0⟩, 1⟩ :=
      WMStep.startAttempt _ ⟨0, 0, 3, 0⟩ [] (by decide) rfl rfl (by decide)
    exact Relation.ReflTransGen.tail (Relation.ReflTransGen.tail Relation.ReflTransGen.refl s1) s2
  · exact WMStep.finishFailRequeue ⟨0, [], true, some ⟨0, 0, 3, 0⟩, 1⟩ ⟨0, 0, 3, 0⟩ rfl (by decide)

/-- C4, corrected claim: `cleanup()` resolves exactly when the queue is
empty **or** the `processing` flag is false (the loop condition is a
conjunction), for both managers.  When it resolves with the flag false, no
task is pending or in flight in any reachable state; but it may also
resolve while the flag is still true with one delivery in flight, so it
does not guarantee `pending == 0 && !processing`. -/
theorem cleanup_resolution_guarantee :
    (∀ s : WMState, webhookCleanupDone s = true ↔ (s.queue = [] ∨ s.processing = false)) ∧
    (∀ s : WMState, WMReach s → webhookCleanupDone s = true → s.processing = false →
      s.queue = [] ∧ s.inflight = none) ∧
    (∀ s : UMState, uploadCleanupDone s = true ↔ (s.queue = [] ∨ s.processing = false)) ∧
    (∀ s : UMState, UMReach s → uploadCleanupDone s = true → s.processing = false →
      s.queue = [] ∧ s.inflight = none) := by
  refine ⟨?_, ?_, ?_, ?_⟩
  · intro s
    cases hq : s.queue <;> cases hp : s.processing <;>
      simp [webhookCleanupDone, hq, hp]
  · intro s hs _ hp
    obtain ⟨h1, h2, h3, h4⟩ := WMInv_reach hs
    have hl0 : s.loops = 0 := by
      by_contra hne
      have he : s.loops = 1 := by omega
      have hptrue := h2.mpr he
      rw [hp] at hptrue
      exact Bool.false_ne_true hptrue
    refine ⟨h4 hl0, ?_⟩
    cases hin : s.inflight with
    | none => rfl
    | some t =>
        have := h3 (by rw [hin]; exact fun hc => Option.noConfusion hc)
        omega
  · intro s
    cases hq : s.queue <;> cases hp : s.processing <;>
      simp [uploadCleanupDone, hq, hp]
  · intro s hs _ hp
    obtain ⟨h1, h2, h3, h4⟩ := UMInv_reach hs
    have hl0 : s.loops = 0 := by
      by_contra hne
      have he : s.loops = 1 := by omega
      have hptrue := h2.mpr he
      rw [hp] at hptrue
      exact Bool.false_ne_true hptrue
    refine ⟨h4 hl0, ?_⟩
    cases hin : s.inflight with
    | none => rfl
    | some t =>
        have := h3 (by rw [hin]; exact fun hc => Option.noConfusion hc)
        omega

/-- Witness for `cleanup_resolution_guarantee` at the initial states: the
poll resolves there, and indeed nothing is pending or in flight. -/
theorem cleanup_resolution_guarantee_witness :
    (webhookCleanupDone WMInit = true ↔ (WMInit.queue = [] ∨ WMInit.processing = false)) ∧
    (WMInit.queue = [] ∧ WMInit.inflight = none) ∧
    (uploadCleanupDone UMInit = true ↔ (UMInit.queue = [] ∨ UMInit.processing = false)) ∧
    (UMInit.queue = [] ∧ UMInit.inflight = none) :=
  ⟨cleanup_resolution_guarantee.1 WMInit,
   cleanup_resolution_guarantee.2.1 WMInit Relation.ReflTransGen.refl (by decide) rfl,
   cleanup_resolution_guarantee.2.2.1 UMInit,
   cleanup_resolution_guarantee.2.2.2 UMInit Relation.ReflTransGen.refl (by decide) rfl⟩

/-! ### Compression stage (claim C7)

`RecordingManager.compressRecording` (src/lib/recording-manager.js):

```
if (format === 'none') return inputPath;
const outputPath = inputPath + Utils.getFileExtensionForCompression(format);
try {
  if (format === 'gzip') await this.compressWithGzip(inputPath, outputPath);
  else if (format === 'zip') await this.compressWithZip(inputPath, outputPath);
  if (fs.existsSync(outputPath)) {
    await promisify(fs.unlink)(inputPath);
    return outputPath;
  }
} catch (error) { console.error('Compression failed:', error); }
return inputPath;
```

The file system is modelled as the list of existing paths; the streaming
transform is modelled by its outcome: on success the output file exists,
on failure the transform threw and a partially written output file may or
may not have been left behind. -/

inductive CompressionFormat where
  | none
  | gzip
  | zip
  | other (s : String)
deriving Repr, DecidableEq

/-- `Utils.getFileExtensionForCompression` (src/lib/utils.js): `.gz` for
gzip, `.zip` for zip, the empty string for `none` and anything else. -/
def getFileExtensionForCompression : CompressionFormat → String
  | .gzip => ".gz"
  | .zip => ".zip"
  | .none => ""
  | .other _ => ""

/-- Outcome of the streaming transform (`compressWithGzip` /
`compressWithZip`): it resolves having written the output file, or rejects
(`outputWritten` records whether a partial output file was left on disk). -/
inductive TransformOutcome where
  | success
  | failure (outputWritten : Bool)
deriving Repr, DecidableEq

/-- `RecordingManager.compressRecording`: returns the file system after the
stage, the returned artifact path, and whether a transform was invoked. -/
def compressRecording (format : CompressionFormat) (input : String)
    (fs : List String) (outcome : TransformOutcome) :
    List String × String × Bool :=
  match format with
  | .none => (fs, input, false)
  | .gzip =>
      let output := input ++ getFileExtensionForCompression .gzip
      match outcome with
      | .success =>
          let fs1 := output :: fs
          if output ∈ fs1 then (fs1.erase input, output, true) else (fs1, input, true)
      | .failure written =>
          ((if written then output :: fs else fs), input, true)
  | .zip =>
      let output := input ++ getFileExtensionForCompression .zip
      match outcome with
      | .success =>
          let fs1 := output :: fs
          if output ∈ fs1 then (fs1.erase input, output, true) else (fs1, input, true)
      | .failure written =>
          ((if written then output :: fs else fs), input, true)
  | .other s =>
      let output := input ++ getFileExtensionForCompression (.other s)
      if output ∈ fs then (fs.erase input, output, false) else (fs, input, false)

theorem ne_append_ext (input ext : String) (h : 1 ≤ ext.length) :
    input ≠ input ++ ext := by
  intro he
  have hlen := congrArg String.length he
  rw [String.length_append] at hlen
  omega

/-- C7: the compression stage's contract, as the claim states it:
* format `none`: the returned path is the input path, no transform runs
  and no file is created or removed;
* format `gzip`, transform succeeded: the returned path is
  `input + ".gz"`, which exists afterwards, and the input file has been
  deleted;
* in every gzip outcome the input file is deleted only if the `.gz` output
  exists afterwards (deletion happens strictly after a successful write);
* if the transform fails, for gzip and zip alike, the stage returns the
  original input path and the input file is still present. -/
theorem compression_stage_contract :
    (∀ input fs o, compressRecording CompressionFormat.none input fs o = (fs, input, false)) ∧
    (∀ input fs, (compressRecording .gzip input fs .success).2.1 = input ++ ".gz" ∧
      input ++ ".gz" ∈ (compressRecording .gzip input fs .success).1 ∧
      (compressRecording .gzip input fs .success).2.2 = true) ∧
    (∀ input fs, fs.Nodup → input ∉ (compressRecording .gzip input fs .success).1) ∧
    (∀ input fs o, input ∈ fs → input ∉ (compressRecording .gzip input fs o).1 →
      input ++ ".gz" ∈ (compressRecording .gzip input fs o).1) ∧
    (∀ fmt input fs w, fmt = CompressionFormat.gzip ∨ fmt = CompressionFormat.zip →
      (compressRecording fmt input fs (.failure w)).2.1 = input ∧
      (input ∈ fs → input ∈ (compressRecording fmt input fs (.failure w)).1)) := by
  refine ⟨fun _ _ _ => rfl, ?_, ?_, ?_, ?_⟩
  · intro input fs
    have hne : input ≠ input ++ ".gz" := ne_append_ext input ".gz" (by decide)
    simp only [compressRecording, getFileExtensionForCompression]
    rw [if_pos (List.mem_cons_self _ _)]
    refine ⟨rfl, ?_, rfl⟩
    exact (List.mem_erase_of_ne (fun hc => hne hc.symm)).mpr (List.mem_cons_self _ _)
  · intro input fs hnd
    have hne : input ≠ input ++ ".gz" := ne_append_ext input ".gz" (by decide)
    simp only [compressRecording, getFileExtensionForCompression]
    rw [if_pos (List.mem_cons_self _ _)]
    intro hmem
    rw [List.erase_cons_tail] at hmem
    · rcases List.mem_cons.mp hmem with hc | hc
      · exact hne hc
      · exact (hnd.mem_erase_iff.mp hc).1 rfl
    · simpa using fun hc => hne hc.symm
  · intro input fs o hin hout
    have hne : input ≠ input ++ ".gz" := ne_append_ext input ".gz" (by decide)
    cases o with
    | success =>
        simp only [compressRecording, getFileExtensionForCompression] at hout ⊢
        rw [if_pos (List.mem_cons_self _ _)] at hout ⊢
        exact (List.mem_erase_of_ne (fun hc => hne hc.symm)).mpr (List.mem_cons_self _ _)
    | failure w =>
        exfalso
        apply hout
        simp only [compressRecording, getFileExtensionForCompression]
        cases w
        · simpa using hin
        · simpa using Or.inr hin
  · intro fmt input fs w hfmt
    rcases hfmt with h | h <;> subst h
    · refine ⟨rfl, fun hin => ?_⟩
      simp only [compressRecording, getFileExtensionForCompression]
      cases w
      · simpa using hin
      · simpa using Or.inr hin
    · refine ⟨rfl, fun hin => ?_⟩
      simp only [compressRecording, getFileExtensionForCompression]
      cases w
      · simpa using hin
      · simpa using Or.inr hin

/-- Witness for `compression_stage_contract` on a one-file file system
holding `rec.guac`. -/
theorem compression_stage_contract_witness :
    compressRecording CompressionFormat.none "rec.guac" ["rec.guac"] .success =
      (["rec.guac"], "rec.guac", false) ∧
    ("rec.guac" ++ ".gz") ∈ (compressRecording .gzip "rec.guac" ["rec.guac"] .success).1 ∧
    "rec.guac" ∉ (compressRecording .gzip "rec.guac" ["rec.guac"] .success).1 ∧
    (compressRecording .gzip "rec.guac" ["rec.guac"] (.failure false)).2.1 = "rec.guac" :=
  ⟨compression_stage_contract.1 "rec.guac" ["rec.guac"] .success,
   (compression_stage_contract.2.1 "rec.guac" ["rec.guac"]).2.1,
   compression_stage_contract.2.2.1 "rec.guac" ["rec.guac"] (by decide),
   (compression_stage_contract.2.2.2.2 .gzip "rec.guac" ["rec.guac"] false (Or.inl rfl)).1⟩

/-! ### The S3 client's internal retry wrapper (claim C9)

`Utils.createRetryWrapper(fn, maxRetries, baseDelay)` (src/lib/utils.js)
loops `for (attempt = 0; attempt <= maxRetries; attempt++)`, returning on
the first success and rethrowing the last error when `attempt ===
maxRetries`.  `S3Uploader.upload` wraps `performUpload` in
`createRetryWrapper(this.performUpload.bind(this), 3, 2000)` and awaits
one call of the wrapper per queue-level attempt.  `outcomes i` is the
result of the `i`-th invocation of the wrapped function. -/

def retryRunAux (outcomes : Nat → Bool) : Nat → Nat → Nat × Bool
  | 0, i => if outcomes i then (1, true) else (1, false)
  | r + 1, i =>
      if outcomes i then (1, true)
      else
        let rest := retryRunAux outcomes r (i + 1)
        (rest.1 + 1, rest.2)

/-- Number of invocations of the wrapped function, and overall success, of
one call of the function returned by `createRetryWrapper(fn, maxRetries)`. -/
def createRetryWrapperRun (outcomes : Nat → Bool) (maxRetries : Nat) : Nat × Bool :=
  retryRunAux outcomes maxRetries 0

/-- Invocations of `S3Uploader.performUpload` during one queue-level upload
attempt, i.e. one call of `S3Uploader.upload`: the wrapper is created with
`maxRetries = 3`. -/
def s3UploadPhysicalCalls (outcomes : Nat → Bool) : Nat :=
  (createRetryWrapperRun outcomes 3).1

/-- Physical invocations across `n` queue-level attempts whose `k`-th
attempt sees the invocation outcomes `oc k`. -/
def totalPhysicalCalls (oc : Nat → Nat → Bool) : Nat → Nat
  | 0 => 0
  | n + 1 => totalPhysicalCalls oc n + s3UploadPhysicalCalls (oc n)

theorem retryRunAux_le (outcomes : Nat → Bool) :
    ∀ r i, (retryRunAux outcomes r i).1 ≤ r + 1 := by
  intro r
  induction r with
  | zero =>
      intro i
      unfold retryRunAux
      split <;> simp
  | succ r ih =>
      intro i
      unfold retryRunAux
      split
      · simp
      · dsimp only
        have := ih (i + 1)
        omega

/-- C9 counterexample: when every physical upload try fails, a single
queue-level attempt (one call of `S3Uploader.upload`) invokes
`performUpload` 4 times, not once; over the queue's 3 attempts that is 12
physical tries, which is not bounded by the queue's `maxAttempts = 3`. -/
theorem s3_attempt_invokes_client_retries :
    s3UploadPhysicalCalls (fun _ => false) = 4 ∧ (4 : Nat) ≠ 1 ∧
    totalPhysicalCalls (fun _ _ => false) 3 = 12 ∧ ¬ (12 : Nat) ≤ 3 :=
  ⟨by decide, by decide, by decide, by decide⟩

/-- C9, corrected claim: the retry/backoff of the upload path is **not**
supplied by the queue alone: `S3Uploader.upload` wraps the physical upload
in `createRetryWrapper(..., 3, 2000)`, so one queue-level attempt makes
between 1 and 4 invocations of the storage upload, stopping at the first
success — and the total number of physical tries over `n` queue-level
attempts is bounded by `4 * n` (hence `4 * maxAttempts`, not
`maxAttempts`). -/
theorem upload_attempt_physical_call_bounds (outcomes : Nat → Bool)
    (oc : Nat → Nat → Bool) (n : Nat) :
    1 ≤ s3UploadPhysicalCalls outcomes ∧
    s3UploadPhysicalCalls outcomes ≤ 4 ∧
    (outcomes 0 = true → createRetryWrapperRun outcomes 3 = (1, true)) ∧
    totalPhysicalCalls oc n ≤ 4 * n := by
  refine ⟨?_, ?_, ?_, ?_⟩
  · unfold s3UploadPhysicalCalls createRetryWrapperRun retryRunAux
    split <;> simp
  · exact retryRunAux_le outcomes 3 0
  · intro h0
    unfold createRetryWrapperRun retryRunAux
    rw [if_pos h0]
  · induction n with
    | zero => exact Nat.le_refl 0
    | succ n ih =>
        have h4 : s3UploadPhysicalCalls (oc n) ≤ 4 := retryRunAux_le (oc n) 3 0
        unfold totalPhysicalCalls
        omega

/-- Witness for `upload_attempt_physical_call_bounds` with a first-try
success and two queue attempts. -/
theorem upload_attempt_physical_call_bounds_witness :
    1 ≤ s3UploadPhysicalCalls (fun _ => true) ∧
    s3UploadPhysicalCalls (fun _ => true) ≤ 4 ∧
    ((fun _ : Nat => true) 0 = true → createRetryWrapperRun (fun _ => true) 3 = (1, true)) ∧
    totalPhysicalCalls (fun _ _ => true) 2 ≤ 4 * 2 :=
  upload_attempt_physical_call_bounds (fun _ => true) (fun _ _ => true) 2

/-! ### Webhook payload redaction (claims C8, C10)

`Utils.sanitizeWebhookPayload` (src/lib/utils.js) deep-copies its argument
with `JSON.parse(JSON.stringify(data))` and then walks the copy, replacing
the value of every key whose lowercased name contains an entry of its
deny-list by `'[REDACTED]'`, recursing into object-typed values of
non-matching keys.  JSON values are modelled by `JVal`; JavaScript's
`String.prototype.includes` by `containsSub` on character lists, and
`String.prototype.toLowerCase` by ASCII lowercasing (all deny-list entries
are ASCII). -/

inductive JVal where
  | str (s : String)
  | num (n : Int)
  | bool (b : Bool)
  | null
  | arr (elems : List JVal)
  | obj (fields : List (String × JVal))
deriving Repr

/-- `key.toLowerCase()` on the ASCII alphabet. -/
def toLowerStr (s : String) : String :=
  String.mk (s.data.map Char.toLower)

/-- `hay.includes(needle)` on character lists: some tail of `hay` starts
with `needle`. -/
def containsSub (needle : List Char) : List Char → Bool
  | [] => needle.isEmpty
  | c :: rest => needle.isPrefixOf (c :: rest) || containsSub needle rest

/-- The deny-list of `Utils.sanitizeWebhookPayload`, verbatim from the
source. -/
def sensitiveFields : List String :=
  ["password", "private-key", "secret", "token", "passphrase",
   "secret_key", "access_key", "api_key"]

/-- `sensitiveFields.some(field => key.toLowerCase().includes(field))`. -/
def isSensitiveKey (key : String) : Bool :=
  sensitiveFields.any fun f => containsSub f.toList (toLowerStr key).data

mutual

/-- The recursive walk `removeSensitiveFields`, acting functionally on the
(copied) value: matching keys get the marker, object-typed values of other
keys are walked recursively (`typeof obj[key] === 'object'` — primitives
are left in place, array indices never match the deny-list). -/
def sanitizeVal : JVal → JVal
  | .str s => .str s
  | .num n => .num n
  | .bool b => .bool b
  | .null => .null
  | .arr es => .arr (sanitizeList es)
  | .obj fs => .obj (sanitizeFields fs)

def sanitizeList : List JVal → List JVal
  | [] => []
  | v :: vs => sanitizeVal v :: sanitizeList vs

def sanitizeFields : List (String × JVal) → List (String × JVal)
  | [] => []
  | (k, v) :: fs =>
      (if isSensitiveKey k then (k, JVal.str "[REDACTED]")
        else (k, sanitizeVal v)) :: sanitizeFields fs

end

/-- `Utils.sanitizeWebhookPayload`: `!data || typeof data !== 'object'`
returns the input unchanged; otherwise the deep copy is walked. -/
def sanitizeWebhookPayload : JVal → JVal
  | .obj fs => sanitizeVal (.obj fs)
  | .arr es => sanitizeVal (.arr es)
  | v => v

theorem sanitizeFields_cons (k : String) (v : JVal) (fs : List (String × JVal)) :
    sanitizeFields ((k, v) :: fs) =
      (if isSensitiveKey k then (k, JVal.str "[REDACTED]")
        else (k, sanitizeVal v)) :: sanitizeFields fs := rfl

mutual

theorem sanitizeVal_idem : ∀ v : JVal, sanitizeVal (sanitizeVal v) = sanitizeVal v
  | .str _ => rfl
  | .num _ => rfl
  | .bool _ => rfl
  | .null => rfl
  | .arr es => by simp only [sanitizeVal, sanitizeList_idem es]
  | .obj fs => by simp only [sanitizeVal, sanitizeFields_idem fs]

theorem sanitizeList_idem : ∀ es : List JVal, sanitizeList (sanitizeList es) = sanitizeList es
  | [] => rfl
  | v :: vs => by simp only [sanitizeList, sanitizeVal_idem v, sanitizeList_idem vs]

theorem sanitizeFields_idem :
    ∀ fs : List (String × JVal), sanitizeFields (sanitizeFields fs) = sanitizeFields fs
  | [] => rfl
  | (k, v) :: fs => by
      cases h : isSensitiveKey k with
      | true =>
          rw [sanitizeFields_cons, if_pos h, sanitizeFields_cons, if_pos h,
            sanitizeFields_idem fs]
      | false =>
          have hne : ¬ isSensitiveKey k = true := by rw [h]; exact Bool.false_ne_true
          rw [sanitizeFields_cons, if_neg hne, sanitizeFields_cons, if_neg hne,
            sanitizeVal_idem v, sanitizeFields_idem fs]

end

theorem sanitizeFields_eq_map : ∀ fs : List (String × JVal),
    sanitizeFields fs = fs.map fun kv =>
      if isSensitiveKey kv.1 then (kv.1, JVal.str "[REDACTED]")
      else (kv.1, sanitizeVal kv.2) := by
  intro fs
  induction fs with
  | nil => rfl
  | cons kv fs ih =>
      obtain ⟨k, v⟩ := kv
      rw [sanitizeFields_cons, List.map_cons, ih]

/-- The deny-list exactly as claim C8 words it: password, secret, token,
api key, private key, passphrase; matching is case-insensitive substring
containment.  This definition follows the claim's words, to be compared
with `isSensitiveKey` from the source. -/
def claimDenyList : List String :=
  ["password", "secret", "token", "api key", "private key", "passphrase"]

/-- A key matches the claim's deny-list. -/
def claimMatchesKey (key : String) : Bool :=
  claimDenyList.any fun f => containsSub f.toList (toLowerStr key).data

/-- C8 counterexample: the key `access_key` does not match the claim's
deny-list (password, secret, token, api key, private key, passphrase), so
under the claim its value must be kept — but the code's deny-list also
contains `access_key`, and the value is redacted. -/
theorem access_key_redacted_despite_claim_denylist :
    sanitizeWebhookPayload (.obj [("access_key", .str "AKIA")]) =
      .obj [("access_key", .str "[REDACTED]")] ∧
    claimMatchesKey "access_key" = false ∧
    ("[REDACTED]" : String) ≠ "AKIA" :=
  ⟨rfl, by decide, by decide⟩

/-- C8, corrected claim: redaction is idempotent and deep, with the code's
deny-list — password, private-key, secret, token, passphrase, secret_key,
access_key, api_key — matched case-insensitively as a substring of the key
name: at every nesting depth a matching key's value becomes `[REDACTED]`
and a non-matching key keeps its (recursively redacted) value; the claim's
example mapping holds. -/
theorem redaction_idempotent_and_deep :
    (∀ v, sanitizeWebhookPayload (sanitizeWebhookPayload v) = sanitizeWebhookPayload v) ∧
    (∀ fs : List (String × JVal), sanitizeFields fs = fs.map fun kv =>
      if isSensitiveKey kv.1 then (kv.1, JVal.str "[REDACTED]")
      else (kv.1, sanitizeVal kv.2)) ∧
    sanitizeWebhookPayload
        (.obj [("user", .str "a"), ("meta", .obj [("api_key", .str "x"), ("id", .num 1)])]) =
      .obj [("user", .str "a"), ("meta", .obj [("api_key", .str "[REDACTED]"), ("id", .num 1)])] := by
  refine ⟨?_, sanitizeFields_eq_map, rfl⟩
  intro v
  cases v with
  | obj fs =>
      show sanitizeWebhookPayload (sanitizeVal (.obj fs)) = sanitizeVal (.obj fs)
      rw [show sanitizeVal (.obj fs) = .obj (sanitizeFields fs) from rfl]
      exact sanitizeVal_idem (.obj fs)
  | arr es =>
      show sanitizeWebhookPayload (sanitizeVal (.arr es)) = sanitizeVal (.arr es)
      rw [show sanitizeVal (.arr es) = .arr (sanitizeList es) from rfl]
      exact sanitizeVal_idem (.arr es)
  | str s => rfl
  | num n => rfl
  | bool b => rfl
  | null => rfl

/-! ### Heap model of `sanitizeWebhookPayload` (claim C10)

Claim C10 is about mutation: `sanitizeWebhookPayload` redacts a deep copy
(`JSON.parse(JSON.stringify(data))`) in place and must leave its argument
object untouched in memory.  To state that, JavaScript objects are given
an explicit store: nodes live at numeric addresses and reference their
children by address.  Every node of the JSON round-trip copy is freshly
allocated (the copy is an address-disjoint tree), so overwriting a field's
value amounts to overwriting the node at the field's (unshared) child
address. -/

/-- A heap node: a primitive, or a composite referencing its children by
address. -/
inductive HNode where
  | hstr (s : String)
  | hnum (n : Int)
  | hbool (b : Bool)
  | hnull
  | harr (elems : List Nat)
  | hobj (fields : List (String × Nat))
deriving Repr, DecidableEq

/-- Child addresses of a node. -/
def HNode.children : HNode → List Nat
  | .harr es => es
  | .hobj fs => fs.map Prod.snd
  | _ => []

/-- Whether the value is primitive, i.e. `!data || typeof data !== 'object'`
short-circuits `sanitizeWebhookPayload` (recall `typeof null === 'object'`
but `!null` is true, so `null` is also returned unchanged). -/
def HNode.isPrim : HNode → Bool
  | .harr _ => false
  | .hobj _ => false
  | _ => true

/-- A heap: a partial map from addresses to nodes. -/
def Heap : Type := Nat → Option HNode

/-- Write a node at an address. -/
def Heap.update (h : Heap) (a : Nat) (nd : HNode) : Heap :=
  fun b => if b = a then some nd else h b

mutual

/-- Read the JSON value rooted at `a` (fuel-bounded; the JSON round-trip
would throw on cyclic structures anyway). -/
def readVal : Nat → Heap → Nat → Option JVal
  | 0, _, _ => Option.none
  | f + 1, h, a =>
    match h a with
    | Option.none => Option.none
    | some (.hstr s) => some (.str s)
    | some (.hnum n) => some (.num n)
    | some (.hbool b) => some (.bool b)
    | some .hnull => some .null
    | some (.harr es) => (readList f h es).map JVal.arr
    | some (.hobj fs) => (readFields f h fs).map JVal.obj
termination_by f _ _ => (f, 0)

def readList : Nat → Heap → List Nat → Option (List JVal)
  | _, _, [] => some []
  | f, h, a :: as =>
    match readVal f h a, readList f h as with
    | some v, some vs => some (v :: vs)
    | _, _ => Option.none
termination_by f _ as => (f, as.length + 1)

def readFields : Nat → Heap → List (String × Nat) → Option (List (String × JVal))
  | _, _, [] => some []
  | f, h, (k, a) :: fs =>
    match readVal f h a, readFields f h fs with
    | some v, some vs => some ((k, v) :: vs)
    | _, _ => Option.none
termination_by f _ fs => (f, fs.length + 1)

end

mutual

/-- Allocate the tree of `v` at fresh addresses starting from counter `c`
(models `JSON.parse` of the stringified value): returns the extended heap,
the next counter, and the root address. -/
def allocVal : JVal → Heap → Nat → Heap × Nat × Nat
  | .str s, h, c => (h.update c (.hstr s), c + 1, c)
  | .num n, h, c => (h.update c (.hnum n), c + 1, c)
  | .bool b, h, c => (h.update c (.hbool b), c + 1, c)
  | .null, h, c => (h.update c .hnull, c + 1, c)
  | .arr es, h, c =>
      let r := allocList es h c
      (r.1.update r.2.1 (.harr r.2.2), r.2.1 + 1, r.2.1)
  | .obj fs, h, c =>
      let r := allocFields fs h c
      (r.1.update r.2.1 (.hobj r.2.2), r.2.1 + 1, r.2.1)

def allocList : List JVal → Heap → Nat → Heap × Nat × List Nat
  | [], h, c => (h, c, [])
  | v :: vs, h, c =>
      let r1 := allocVal v h c
      let r2 := allocList vs r1.1 r1.2.1
      (r2.1, r2.2.1, r1.2.2 :: r2.2.2)

def allocFields : List (String × JVal) → Heap → Nat → Heap × Nat × List (String × Nat)
  | [], h, c => (h, c, [])
  | (k, v) :: fs, h, c =>
      let r1 := allocVal v h c
      let r2 := allocFields fs r1.1 r1.2.1
      (r2.1, r2.2.1, (k, r1.2.2) :: r2.2.2)

end

mutual

/-- The in-place walk `removeSensitiveFields` on the store: at an object
node, each field with a sensitive key has its value overwritten by the
`'[REDACTED]'` string (the copy is an address-disjoint tree, so writing
the node at the field's child address is the slot assignment
`obj[key] = '[REDACTED]'`); other fields are recursed into; an array
node's elements are recursed into (indices never match the deny-list);
primitives are left alone. -/
def redactAt : Nat → Heap → Nat → Heap
  | 0, h, _ => h
  | f + 1, h, a =>
    match h a with
    | some (.hobj fs) => redactFields f fs h
    | some (.harr es) => redactElems f es h
    | _ => h
termination_by f _ _ => (f, 0)

def redactFields : Nat → List (String × Nat) → Heap → Heap
  | _, [], h => h
  | f, (k, b) :: fs, h =>
      if isSensitiveKey k then
        redactFields f fs (h.update b (.hstr "[REDACTED]"))
      else
        redactFields f fs (redactAt f h b)
termination_by f fs _ => (f, fs.length + 1)

def redactElems : Nat → List Nat → Heap → Heap
  | _, [], h => h
  | f, b :: es, h => redactElems f es (redactAt f h b)
termination_by f es _ => (f, es.length + 1)

end

/-- `Utils.sanitizeWebhookPayload` on the store: a primitive (or absent)
argument is returned as is; an object or array argument is read back
(`JSON.stringify`), re-allocated at fresh addresses from the counter `c`
(`JSON.parse`), and the copy is redacted in place.  Returns the final heap,
the new allocation counter, and the address of the returned value. -/
def sanitizeHeapPayload (fuel : Nat) (h : Heap) (c : Nat) (a : Nat) :
    Heap × Nat × Nat :=
  match h a with
  | some (.hobj _) | some (.harr _) =>
    match readVal fuel h a with
    | some v =>
        let r := allocVal v h c
        (redactAt fuel r.1 r.2.2, r.2.1, r.2.2)
    | Option.none => (h, c, a)
  | _ => (h, c, a)

/-- Nothing is stored at or above the watermark `W`. -/
def domBelow (W : Nat) (h : Heap) : Prop :=
  ∀ a, W ≤ a → h a = Option.none

/-- Every node below the watermark has its children below it too. -/
def closedBelow (W : Nat) (h : Heap) : Prop :=
  ∀ a, a < W → ∀ nd, h a = some nd → ∀ b ∈ nd.children, b < W

/-- Every node at or above the watermark has its children at or above it. -/
def okAbove (W : Nat) (h : Heap) : Prop :=
  ∀ a, W ≤ a → ∀ nd, h a = some nd → ∀ b ∈ nd.children, W ≤ b

/-- The heaps agree strictly below the watermark. -/
def agreeBelow (W : Nat) (h h' : Heap) : Prop :=
  ∀ a, a < W → h' a = h a

theorem update_frame (h : Heap) (b : Nat) (nd : HNode) (a : Nat) (hab : a ≠ b) :
    h.update b nd a = h a := by
  unfold Heap.update
  rw [if_neg hab]

theorem okAbove_update (W : Nat) (h : Heap) (b : Nat) (nd : HNode) (hb : W ≤ b)
    (hok : okAbove W h) (hch : ∀ x ∈ nd.children, W ≤ x) :
    okAbove W (h.update b nd) := by
  intro a ha nd' hnd' x hx
  by_cases hab : a = b
  · subst hab
    unfold Heap.update at hnd'
    rw [if_pos rfl] at hnd'
    cases hnd'
    exact hch x hx
  · rw [update_frame h b nd a hab] at hnd'
    exact hok a ha nd' hnd' x hx

/-! Reading below the watermark only looks below the watermark. -/

mutual

theorem readVal_frame : ∀ (f : Nat) (h h' : Heap) (W a : Nat),
    agreeBelow W h h' → closedBelow W h → a < W → readVal f h' a = readVal f h a
  | 0, _, _, _, _ => fun _ _ _ => by simp only [readVal]
  | f + 1, h, h', W, a => fun hag hcl ha => by
      have hha : h' a = h a := hag a ha
      simp only [readVal, hha]
      cases hnd : h a with
      | none => rfl
      | some nd =>
          cases nd with
          | hstr s => rfl
          | hnum n => rfl
          | hbool b => rfl
          | hnull => rfl
          | harr es =>
              dsimp only
              have hch : ∀ b ∈ es, b < W := by
                intro b hbm
                exact hcl a ha (.harr es) hnd b (by simpa [HNode.children] using hbm)
              rw [readList_frame f h h' W es hag hcl hch]
          | hobj fs =>
              dsimp only
              have hch : ∀ kb ∈ fs, kb.2 < W := by
                intro kb hkb
                exact hcl a ha (.hobj fs) hnd kb.2
                  (by simp only [HNode.children]; exact List.mem_map_of_mem Prod.snd hkb)
              rw [readFields_frame f h h' W fs hag hcl hch]
termination_by f _ _ _ _ => (f, 0)

theorem readList_frame : ∀ (f : Nat) (h h' : Heap) (W : Nat) (as : List Nat),
    agreeBelow W h h' → closedBelow W h → (∀ b ∈ as, b < W) →
    readList f h' as = readList f h as
  | _, _, _, _, [] => fun _ _ _ => by simp only [readList]
  | f, h, h', W, a :: as => fun hag hcl hb => by
      simp only [readList]
      rw [readVal_frame f h h' W a hag hcl (hb a (List.mem_cons_self a as)),
        readList_frame f h h' W as hag hcl (fun b hbm => hb b (List.mem_cons_of_mem a hbm))]
termination_by f _ _ _ as => (f, as.length + 1)

theorem readFields_frame : ∀ (f : Nat) (h h' : Heap) (W : Nat)
    (fs : List (String × Nat)),
    agreeBelow W h h' → closedBelow W h → (∀ kb ∈ fs, kb.2 < W) →
    readFields f h' fs = readFields f h fs
  | _, _, _, _, [] => fun _ _ _ => by simp only [readFields]
  | f, h, h', W, (k, a) :: fs => fun hag hcl hb => by
      simp only [readFields]
      rw [readVal_frame f h h' W a hag hcl (hb (k, a) (List.mem_cons_self (k, a) fs)),
        readFields_frame f h h' W fs hag hcl (fun kb hkb => hb kb (List.mem_cons_of_mem (k, a) hkb))]
termination_by f _ _ _ fs => (f, fs.length + 1)

end

/-! Allocation only writes at fresh addresses, at or above the counter,
and allocated nodes reference only addresses at or above the counter. -/

mutual

theorem allocVal_spec : ∀ (v : JVal) (h : Heap) (c : Nat),
    c ≤ (allocVal v h c).2.1 ∧
    c ≤ (allocVal v h c).2.2 ∧ (allocVal v h c).2.2 < (allocVal v h c).2.1 ∧
    (∀ a, a < c → (allocVal v h c).1 a = h a) ∧
    (∀ W, okAbove W h → W ≤ c → okAbove W (allocVal v h c).1)
  | .str s, h, c => by
      simp only [allocVal]
      refine ⟨by omega, Nat.le_refl c, by omega, ?_, ?_⟩
      · intro a ha
        exact update_frame h c _ a (by omega)
      · intro W hok hWc
        exact okAbove_update W h c _ (by omega) hok (by intro x hx; cases hx)
  | .num n, h, c => by
      simp only [allocVal]
      refine ⟨by omega, Nat.le_refl c, by omega, ?_, ?_⟩
      · intro a ha
        exact update_frame h c _ a (by omega)
      · intro W hok hWc
        exact okAbove_update W h c _ (by omega) hok (by intro x hx; cases hx)
  | .bool b, h, c => by
      simp only [allocVal]
      refine ⟨by omega, Nat.le_refl c, by omega, ?_, ?_⟩
      · intro a ha
        exact update_frame h c _ a (by omega)
      · intro W hok hWc
        exact okAbove_update W h c _ (by omega) hok (by intro x hx; cases hx)
  | .null, h, c => by
      simp only [allocVal]
      refine ⟨by omega, Nat.le_refl c, by omega, ?_, ?_⟩
      · intro a ha
        exact update_frame h c _ a (by omega)
      · intro W hok hWc
        exact okAbove_update W h c _ (by omega) hok (by intro x hx; cases hx)
  | .arr es, h, c => by
      obtain ⟨hc, hfr, haddr, hok⟩ := allocList_spec es h c
      simp only [allocVal]
      refine ⟨by omega, by omega, by omega, ?_, ?_⟩
      · intro a ha
        rw [update_frame _ _ _ a (by omega)]
        exact hfr a ha
      · intro W hokh hWc
        exact okAbove_update W _ _ _ (by omega) (hok W hokh hWc)
          (by intro x hx; simp only [HNode.children] at hx; exact le_trans hWc (haddr x hx).1)
  | .obj fs, h, c => by
      obtain ⟨hc, hfr, haddr, hok⟩ := allocFields_spec fs h c
      simp only [allocVal]
      refine ⟨by omega, by omega, by omega, ?_, ?_⟩
      · intro a ha
        rw [update_frame _ _ _ a (by omega)]
        exact hfr a ha
      · intro W hokh hWc
        refine okAbove_update W _ _ _ (by omega) (hok W hokh hWc) ?_
        intro x hx
        simp only [HNode.children] at hx
        obtain ⟨kb, hkb, hxeq⟩ := List.mem_map.mp hx
        exact le_trans hWc (hxeq ▸ (haddr kb hkb).1)

theorem allocList_spec : ∀ (vs : List JVal) (h : Heap) (c : Nat),
    c ≤ (allocList vs h c).2.1 ∧
    (∀ a, a < c → (allocList vs h c).1 a = h a) ∧
    (∀ b ∈ (allocList vs h c).2.2, c ≤ b ∧ b < (allocList vs h c).2.1) ∧
    (∀ W, okAbove W h → W ≤ c → okAbove W (allocList vs h c).1)
  | [], h, c => by
      refine ⟨Nat.le_refl c, fun _ _ => rfl, ?_, fun _ hok _ => hok⟩
      intro b hb
      cases hb
  | v :: vs, h, c => by
      obtain ⟨hc1, ha1, ha1b, hfr1, hok1⟩ := allocVal_spec v h c
      obtain ⟨hc2, hfr2, haddr2, hok2⟩ := allocList_spec vs (allocVal v h c).1 (allocVal v h c).2.1
      simp only [allocList]
      refine ⟨by omega, ?_, ?_, ?_⟩
      · intro a ha
        rw [hfr2 a (by omega)]
        exact hfr1 a ha
      · intro b hb
        rcases List.mem_cons.mp hb with hb | hb
        · subst hb
          exact ⟨ha1, by omega⟩
        · obtain ⟨hb1, hb2⟩ := haddr2 b hb
          exact ⟨by omega, hb2⟩
      · intro W hokh hWc
        exact hok2 W (hok1 W hokh hWc) (by omega)

theorem allocFields_spec : ∀ (fs : List (String × JVal)) (h : Heap) (c : Nat),
    c ≤ (allocFields fs h c).2.1 ∧
    (∀ a, a < c → (allocFields fs h c).1 a = h a) ∧
    (∀ kb ∈ (allocFields fs h c).2.2, c ≤ kb.2 ∧ kb.2 < (allocFields fs h c).2.1) ∧
    (∀ W, okAbove W h → W ≤ c → okAbove W (allocFields fs h c).1)
  | [], h, c => by
      refine ⟨Nat.le_refl c, fun _ _ => rfl, ?_, fun _ hok _ => hok⟩
      intro kb hkb
      cases hkb
  | (k, v) :: fs, h, c => by
      obtain ⟨hc1, ha1, ha1b, hfr1, hok1⟩ := allocVal_spec v h c
      obtain ⟨hc2, hfr2, haddr2, hok2⟩ := allocFields_spec fs (allocVal v h c).1 (allocVal v h c).2.1
      simp only [allocFields]
      refine ⟨by omega, ?_, ?_, ?_⟩
      · intro a ha
        rw [hfr2 a (by omega)]
        exact hfr1 a ha
      · intro kb hkb
        rcases List.mem_cons.mp hkb with hkb | hkb
        · subst hkb
          exact ⟨ha1, by omega⟩
        · obtain ⟨hb1, hb2⟩ := haddr2 kb hkb
          exact ⟨by omega, hb2⟩
      · intro W hokh hWc
        exact hok2 W (hok1 W hokh hWc) (by omega)

end

/-! In-place redaction started at or above the watermark stays at or above
the watermark: it preserves `okAbove` and never writes below. -/

mutual

theorem redactAt_spec : ∀ (f : Nat) (h : Heap) (a W : Nat),
    okAbove W h → W ≤ a →
    okAbove W (redactAt f h a) ∧ ∀ b, b < W → redactAt f h a b = h b
  | 0, h, a, W => fun hok _ => by simp only [redactAt]; exact ⟨hok, fun _ _ => trivial⟩
  | f + 1, h, a, W => fun hok ha => by
      simp only [redactAt]
      cases hnd : h a with
      | none => exact ⟨hok, fun _ _ => rfl⟩
      | some nd =>
          cases nd with
          | hstr s => exact ⟨hok, fun _ _ => rfl⟩
          | hnum n => exact ⟨hok, fun _ _ => rfl⟩
          | hbool b => exact ⟨hok, fun _ _ => rfl⟩
          | hnull => exact ⟨hok, fun _ _ => rfl⟩
          | harr es =>
              dsimp only
              have hch : ∀ b ∈ es, W ≤ b := by
                intro b hbm
                exact hok a ha (.harr es) hnd b (by simpa [HNode.children] using hbm)
              exact redactElems_spec f es h W hok hch
          | hobj fs =>
              dsimp only
              have hch : ∀ kb ∈ fs, W ≤ kb.2 := by
                intro kb hkb
                exact hok a ha (.hobj fs) hnd kb.2
                  (by simp only [HNode.children]; exact List.mem_map_of_mem Prod.snd hkb)
              exact redactFields_spec f fs h W hok hch
termination_by f _ _ _ => (f, 0)

theorem redactFields_spec : ∀ (f : Nat) (fs : List (String × Nat)) (h : Heap) (W : Nat),
    okAbove W h → (∀ kb ∈ fs, W ≤ kb.2) →
    okAbove W (redactFields f fs h) ∧ ∀ b, b < W → redactFields f fs h b = h b
  | _, [], h, W => fun hok _ => by simp only [redactFields]; exact ⟨hok, fun _ _ => trivial⟩
  | f, (k, b0) :: fs, h, W => fun hok hch => by
      simp only [redactFields]
      have hb0 : W ≤ b0 := hch (k, b0) (List.mem_cons_self (k, b0) fs)
      have hrest : ∀ kb ∈ fs, W ≤ kb.2 :=
        fun kb hkb => hch kb (List.mem_cons_of_mem (k, b0) hkb)
      cases hk : isSensitiveKey k with
      | true =>
          rw [if_pos rfl]
          have hok1 : okAbove W (h.update b0 (.hstr "[REDACTED]")) :=
            okAbove_update W h b0 _ hb0 hok (by intro x hx; cases hx)
          obtain ⟨hok2, hfr2⟩ := redactFields_spec f fs (h.update b0 (.hstr "[REDACTED]")) W hok1 hrest
          refine ⟨hok2, ?_⟩
          intro x hx
          rw [hfr2 x hx, update_frame h b0 _ x (by omega)]
      | false =>
          rw [if_neg Bool.false_ne_true]
          obtain ⟨hok1, hfr1⟩ := redactAt_spec f h b0 W hok hb0
          obtain ⟨hok2, hfr2⟩ := redactFields_spec f fs (redactAt f h b0) W hok1 hrest
          refine ⟨hok2, ?_⟩
          intro x hx
          rw [hfr2 x hx, hfr1 x hx]
termination_by f fs _ _ => (f, fs.length + 1)

theorem redactElems_spec : ∀ (f : Nat) (es : List Nat) (h : Heap) (W : Nat),
    okAbove W h → (∀ b ∈ es, W ≤ b) →
    okAbove W (redactElems f es h) ∧ ∀ b, b < W → redactElems f es h b = h b
  | _, [], h, W => fun hok _ => by simp only [redactElems]; exact ⟨hok, fun _ _ => trivial⟩
  | f, b0 :: es, h, W => fun hok hch => by
      simp only [redactElems]
      have hb0 : W ≤ b0 := hch b0 (List.mem_cons_self b0 es)
      have hrest : ∀ b ∈ es, W ≤ b := fun b hb => hch b (List.mem_cons_of_mem b0 hb)
      obtain ⟨hok1, hfr1⟩ := redactAt_spec f h b0 W hok hb0
      obtain ⟨hok2, hfr2⟩ := redactElems_spec f es (redactAt f h b0) W hok1 hrest
      refine ⟨hok2, ?_⟩
      intro x hx
      rw [hfr2 x hx, hfr1 x hx]
termination_by f es _ _ => (f, es.length + 1)

end

/-- C10: `sanitizeWebhookPayload` leaves its argument unmodified in memory:
for a heap whose allocated addresses all lie below the watermark `W` and
reference only addresses below `W`, running the sanitizer on any root (the
copy being allocated at the fresh addresses from `W`) changes no address
below `W`, so every value readable before — in particular the connection's
original token metadata object — reads back identically afterwards; and a
primitive or `null` argument is returned unchanged, with an untouched heap. -/
theorem sanitize_leaves_argument_unmodified :
    (∀ fuel (h : Heap) W a, domBelow W h → closedBelow W h →
      ∀ f b, b < W → readVal f (sanitizeHeapPayload fuel h W a).1 b = readVal f h b) ∧
    (∀ fuel (h : Heap) c a nd, h a = some nd → nd.isPrim = true →
      sanitizeHeapPayload fuel h c a = (h, c, a)) ∧
    (∀ fuel (h : Heap) c a, h a = Option.none →
      sanitizeHeapPayload fuel h c a = (h, c, a)) := by
  refine ⟨?_, ?_, ?_⟩
  · intro fuel h W a hdom hcl f b hb
    have hframe : agreeBelow W h (sanitizeHeapPayload fuel h W a).1 := by
      intro x hx
      cases hnd : h a with
      | none =>
          unfold sanitizeHeapPayload
          rw [hnd]
      | some nd =>
          cases nd with
          | hstr s => unfold sanitizeHeapPayload; rw [hnd]
          | hnum n => unfold sanitizeHeapPayload; rw [hnd]
          | hbool b' => unfold sanitizeHeapPayload; rw [hnd]
          | hnull => unfold sanitizeHeapPayload; rw [hnd]
          | hobj fs =>
              unfold sanitizeHeapPayload
              rw [hnd]
              cases hv : readVal fuel h a with
              | none => rfl
              | some v =>
                  dsimp only
                  obtain ⟨hc1, ha1, ha1b, hfr1, hok1⟩ := allocVal_spec v h W
                  have hokh : okAbove W h := by
                    intro y hy nd' hnd'
                    rw [hdom y hy] at hnd'
                    cases hnd'
                  obtain ⟨hok2, hfr2⟩ :=
                    redactAt_spec fuel (allocVal v h W).1 (allocVal v h W).2.2 W
                      (hok1 W hokh (Nat.le_refl W)) ha1
                  rw [hfr2 x hx, hfr1 x hx]
          | harr es =>
              unfold sanitizeHeapPayload
              rw [hnd]
              cases hv : readVal fuel h a with
              | none => rfl
              | some v =>
                  dsimp only
                  obtain ⟨hc1, ha1, ha1b, hfr1, hok1⟩ := allocVal_spec v h W
                  have hokh : okAbove W h := by
                    intro y hy nd' hnd'
                    rw [hdom y hy] at hnd'
                    cases hnd'
                  obtain ⟨hok2, hfr2⟩ :=
                    redactAt_spec fuel (allocVal v h W).1 (allocVal v h W).2.2 W
                      (hok1 W hokh (Nat.le_refl W)) ha1
                  rw [hfr2 x hx, hfr1 x hx]
    exact readVal_frame f h (sanitizeHeapPayload fuel h W a).1 W b hframe hcl hb
  · intro fuel h c a nd hnd hprim
    cases nd with
    | hstr s => unfold sanitizeHeapPayload; rw [hnd]
    | hnum n => unfold sanitizeHeapPayload; rw [hnd]
    | hbool b => unfold sanitizeHeapPayload; rw [hnd]
    | hnull => unfold sanitizeHeapPayload; rw [hnd]
    | harr es => cases hprim
    | hobj fs => cases hprim
  · intro fuel h c a hnd
    unfold sanitizeHeapPayload
    rw [hnd]

/-- A concrete three-node heap: address 0 holds the metadata object
`{password: "hunter2", userId: "u1"}`, its field values at addresses 1
and 2. -/
def exHeap : Heap := fun a =>
  if a = 0 then some (.hobj [("password", 1), ("userId", 2)])
  else if a = 1 then some (.hstr "hunter2")
  else if a = 2 then some (.hstr "u1")
  else Option.none

/-- Witness for `sanitize_leaves_argument_unmodified`: sanitizing the
metadata object rooted at address 0 of `exHeap` (fresh addresses from 3)
leaves the value read at address 0 unchanged, and sanitizing the primitive
at address 1 returns it unchanged with an untouched heap. -/
theorem sanitize_leaves_argument_unmodified_witness :
    readVal 5 (sanitizeHeapPayload 5 exHeap 3 0).1 0 = readVal 5 exHeap 0 ∧
    sanitizeHeapPayload 5 exHeap 7 1 = (exHeap, 7, 1) := by
  constructor
  · refine sanitize_leaves_argument_unmodified.1 5 exHeap 3 0 ?_ ?_ 5 0 (by decide)
    · intro a ha
      simp only [exHeap]
      rw [if_neg (by omega), if_neg (by omega), if_neg (by omega)]
    · intro a ha nd hnd b hb
      have ha3 : a = 0 ∨ a = 1 ∨ a = 2 := by omega
      rcases ha3 with rfl | rfl | rfl <;>
        (simp [exHeap] at hnd; subst hnd; simp [HNode.children] at hb; try omega)
  · refine sanitize_leaves_argument_unmodified.2.1 5 exHeap 7 1 (.hstr "hunter2") ?_ rfl
    simp [exHeap]

end GuacLite
